import Mathlib

/-!
Verification of the neural-rs computation-graph engine against its
specification.  The Rust source is shallowly embedded: float arithmetic is
modelled by exact rationals where the code uses only field operations and
comparisons, and by the real numbers where it uses exp or sqrt; division is
the total field division of Lean (x / 0 = 0); a Rust panic is modelled as
Option.none.  Parameter containers accessed through the Mappable/Shaped
protocol are modelled as functions out of an index type, since every
implementation of the protocol (DenseState, pairs) applies the supplied
closure to each scalar cell exactly once.
-/

/-- Elementwise rectified-linear forward pass, from src/activation/relu.rs:
the stage maps every entry x of the input array to x.max(0). -/
def reluExec {ι : Type} (x : ι → ℚ) : ι → ℚ :=
  fun i => max (x i) 0

/-- Rectified-linear backward pass, from src/activation/relu.rs: given the
cached state, the pair of raw input and forward output, the input gradient
is computed as output / input * d_output, elementwise.  The division is the
total division of the embedding. -/
def reluBack {ι : Type} (input output dOut : ι → ℚ) : ι → ℚ :=
  fun i => output i / input i * dOut i

/-- One-dimensional mean-squared-error cost from src/cost/mse.rs: with
diff = input - expected, the cost is diff.dot(diff), the plain sum of
squares. -/
def mseCost1 {m : ℕ} (input expected : Fin m → ℚ) : ℚ :=
  ∑ k, (input k - expected k) * (input k - expected k)

/-- One-dimensional mean-squared-error derivative from src/cost/mse.rs:
(input - expected) * two, elementwise. -/
def mseDiff1 {m : ℕ} (input expected : Fin m → ℚ) : Fin m → ℚ :=
  fun k => (input k - expected k) * 2

/-- Batched mean-squared-error cost from src/cost/mse.rs: with the m×n
difference matrix D = input - expected, the cost is the mean of all n×n
entries of Dᵀ·D (diff.t().dot(&diff).mean()). -/
def mseCost2 {m n : ℕ} (input expected : Matrix (Fin m) (Fin n) ℚ) : ℚ :=
  let diff := input - expected
  (∑ i, ∑ j, (diff.transpose * diff) i j) / ((n : ℚ) * n)

/-- Batched mean-squared-error derivative from src/cost/mse.rs:
(input - expected) * two, elementwise. -/
def mseDiff2 {m n : ℕ} (input expected : Matrix (Fin m) (Fin n) ℚ) :
    Matrix (Fin m) (Fin n) ℚ :=
  Matrix.of fun i j => (input i j - expected i j) * 2

/-- The trainable state of the affine (Dense) leaf, from src/dense.rs: a
weight matrix of shape output×input and a bias vector of length output. -/
structure DenseState (o i : ℕ) where
  w : Matrix (Fin o) (Fin i) ℚ
  b : Fin o → ℚ

/-- Unbatched affine forward pass from src/dense.rs: w.dot(input) + b. -/
def denseExec1 {o i : ℕ} (s : DenseState o i) (input : Fin i → ℚ) : Fin o → ℚ :=
  s.w.mulVec input + s.b

/-- Batched affine forward pass from src/dense.rs:
w.dot(input) + b.insert_axis(1), the bias broadcast over the batch
(column) axis. -/
def denseExec2 {o i n : ℕ} (s : DenseState o i) (input : Matrix (Fin i) (Fin n) ℚ) :
    Matrix (Fin o) (Fin n) ℚ :=
  s.w * input + Matrix.of fun j _ => s.b j

/-- Unbatched affine backward pass from src/dense.rs, GraphExecTrain for
Array1: di = wᵀ·dY, db = dY, and dw is the raw outer product of the column
dY with the row xᵀ (d_output.insert_axis(1).dot(input.insert_axis(0))),
with no division. -/
def denseBack1 {o i : ℕ} (s : DenseState o i) (input : Fin i → ℚ) (dOut : Fin o → ℚ) :
    (Fin i → ℚ) × DenseState o i :=
  let di := s.w.transpose.mulVec dOut
  let db := dOut
  let dw : Matrix (Fin o) (Fin i) ℚ := Matrix.of fun j l => dOut j * input l
  (di, ⟨dw, db⟩)

/-- Batched affine backward pass from src/dense.rs, GraphExecTrain for
Array2: with batch_size = n the number of columns of dY,
di = wᵀ·dY, db = d_output.mean_axis(1) (the batch mean of dY), and
dw = d_output.dot(input.t()) / batch_size. -/
def denseBack2 {o i n : ℕ} (s : DenseState o i) (input : Matrix (Fin i) (Fin n) ℚ)
    (dOut : Matrix (Fin o) (Fin n) ℚ) :
    Matrix (Fin i) (Fin n) ℚ × DenseState o i :=
  let batchSize : ℚ := n
  let di := s.w.transpose * dOut
  let db := fun j => (∑ k, dOut j k) / batchSize
  let dw : Matrix (Fin o) (Fin i) ℚ :=
    Matrix.of fun j l => (dOut * input.transpose) j l / batchSize
  (di, ⟨dw, db⟩)

/-- The regularisation configuration from src/train.rs. -/
inductive Regularisation where
  | L1 (a : ℚ)
  | L2 (a : ℚ)
  | L1_2 (a b : ℚ)

/-- Rust f64::signum as used by Regularisation::apply: 1 for non-negative
values (f64::signum maps +0.0 to 1.0) and -1 for negative values. -/
def rustSignum (x : ℚ) : ℚ := if x < 0 then -1 else 1

/-- Regularisation::apply from src/train.rs.  The gradient container is
updated elementwise through map_mut_with exactly as the closure body writes
it.  The local accumulator `cost` of the Rust function is captured *by
value* inside the `move` closure (the scalar type is Copy), so the closure
increments its own private copy; the `cost` binding that the function
returns is initialised to zero and never written again.  The embedding
therefore returns the updated gradients paired with that returned scalar,
which is zero for every variant. -/
def regApply {ι : Type} (r : Regularisation) (grads graph : ι → ℚ) : (ι → ℚ) × ℚ :=
  let cost : ℚ := 0
  match r with
  | .L1 a => (fun i => grads i + rustSignum (graph i) * a, cost)
  | .L2 a => (fun i => grads i + (graph i + graph i) * a, cost)
  | .L1_2 a b =>
      (fun i => grads i + rustSignum (graph i) * a + (graph i + graph i) * b, cost)

/-- The scalar penalty accumulated by the closure body of
Regularisation::apply (x.abs() * a, x * x * a, or their sum), summed over
the whole parameter container: the value the specification says the batch
cost is increased by. -/
def regPenalty {ι : Type} [Fintype ι] (r : Regularisation) (graph : ι → ℚ) : ℚ :=
  match r with
  | .L1 a => ∑ i, |graph i| * a
  | .L2 a => ∑ i, graph i * graph i * a
  | .L1_2 a b => ∑ i, (|graph i| * a + graph i * graph i * b)

/-- Train::train from src/train.rs lines 120-169.  The forward/backward
pass GraphExecTrain::get_grads at the fixed input, expected output and cost
function is abstracted as getGrads : graph ↦ (parameter gradient, batch
cost), and the optimiser step Optimiser::optimise as opt : graph → grads →
updated graph.  The uniform dropout draws produced by G::iter over the
graph shape from a sampled iterator are the argument draws.  When the
dropout rate lies in [0,1) the source builds a masked clone of the graph
(the local variable `graph` of the Rust function, embedded as the unused
binding below) but then invokes get_grads on the unmasked self.graph; the
zero/scale pattern is applied to the resulting gradient.  Returns the
updated graph together with the reported batch cost. -/
def trainStep {ι : Type} (getGrads : (ι → ℚ) → (ι → ℚ) × ℚ)
    (opt : (ι → ℚ) → (ι → ℚ) → ι → ℚ) (reg : Option Regularisation)
    (dropout : ℚ) (graph : ι → ℚ) (draws : ι → ℚ) : (ι → ℚ) × ℚ :=
  let gc :=
    if 0 ≤ dropout ∧ dropout < 1 then
      let a := 1 / (1 - dropout)
      let _masked := fun i => if draws i < dropout then 0 else graph i * a
      let gc := getGrads graph
      (fun i => if draws i < dropout then 0 else gc.1 i * a, gc.2)
    else getGrads graph
  let gc2 :=
    match reg with
    | some r =>
        let rc := regApply r gc.1 graph
        (rc.1, gc.2 + rc.2)
    | none => gc
  (opt graph gc2.1, gc2.2)

/-- Train::train as the specification describes it, stated for comparison
with trainStep: the zero/scale dropout pattern is applied to the graph
*used by the forward pass*, the identical pattern to the resulting
gradient, and the regularisation penalty is added to the reported batch
cost. -/
def trainStepSpec {ι : Type} [Fintype ι] (getGrads : (ι → ℚ) → (ι → ℚ) × ℚ)
    (opt : (ι → ℚ) → (ι → ℚ) → ι → ℚ) (reg : Option Regularisation)
    (dropout : ℚ) (graph : ι → ℚ) (draws : ι → ℚ) : (ι → ℚ) × ℚ :=
  let gc :=
    if 0 ≤ dropout ∧ dropout < 1 then
      let a := 1 / (1 - dropout)
      let masked := fun i => if draws i < dropout then 0 else graph i * a
      let gc := getGrads masked
      (fun i => if draws i < dropout then 0 else gc.1 i * a, gc.2)
    else getGrads graph
  let gc2 :=
    match reg with
    | some r =>
        let rc := regApply r gc.1 graph
        (rc.1, gc.2 + regPenalty r graph)
    | none => gc
  (opt graph gc2.1, gc2.2)

/-- Rust slice indexing v[i..j]: defined when i ≤ j ≤ v.len(), otherwise
the program panics (modelled as none). -/
def sliceRange (l : List ℕ) (i j : ℕ) : Option (List ℕ) :=
  if i ≤ j ∧ j ≤ l.length then some ((l.drop i).take (j - i)) else none

/-- Train::perform_epoch from src/train.rs lines 49-80, after the shuffle:
the shuffled index permutation is the argument ind, and the per-batch call
self.train_batch (which trains on the given index slice and returns its
cost, mutating the trainer) is abstracted as tb : trainer state → slice →
(trainer state, batch cost).  The source iterates i over
(0..n).step_by(batch_size), training on the slice indicies[i..i+batch_size]
each time, then trains once more on the remainder slice when n is not
divisible by batch_size, and finally divides the accumulated cost by
(n + batch_size - 1) / batch_size.  step_by with a zero step and an
out-of-range slice both panic (none). -/
def performEpoch {σ : Type} (tb : σ → List ℕ → σ × ℚ) (s : σ)
    (ind : List ℕ) (batchSize : ℕ) : Option (σ × ℚ) :=
  if batchSize = 0 then none else
  let n := ind.length
  let starts := (List.range ((n + batchSize - 1) / batchSize)).map (· * batchSize)
  match starts.mapM (fun i => sliceRange ind i (i + batchSize)) with
  | none => none
  | some bs =>
      let bs2 := if n % batchSize ≠ 0 then bs ++ [ind.drop (n - n % batchSize)] else bs
      let r := bs2.foldl (fun p bat =>
        let tc := tb p.1 bat
        (tc.1, p.2 + tc.2)) (s, 0)
      some (r.1, r.2 / (((n + batchSize - 1) / batchSize : ℕ) : ℚ))

/-- Train::perform_epoch as the claim describes it, stated for comparison
with performEpoch: each of the n / batch_size full batches is trained, the
final undersized remainder chunk is still trained at its natural smaller
size, and the accumulated cost is divided by the number of batches
⌈n / batch_size⌉. -/
def performEpochSpec {σ : Type} (tb : σ → List ℕ → σ × ℚ) (s : σ)
    (ind : List ℕ) (batchSize : ℕ) : Option (σ × ℚ) :=
  if batchSize = 0 then none else
  let n := ind.length
  let full := (List.range (n / batchSize)).map
    (fun k => ((ind.drop (k * batchSize)).take batchSize))
  let bs2 := if n % batchSize ≠ 0 then full ++ [ind.drop (n - n % batchSize)] else full
  let r := bs2.foldl (fun p bat =>
    let tc := tb p.1 bat
    (tc.1, p.2 + tc.2)) (s, 0)
  some (r.1, r.2 / (((n + batchSize - 1) / batchSize : ℕ) : ℚ))

/-- Sigmoid forward pass from src/activation/sigmoid.rs: the stage maps
every entry x of the inner stage's output to one / (one + x.exp()), i.e.
1 / (1 + e^x). -/
noncomputable def sigmoidExec {ι : Type} (x : ι → ℝ) : ι → ℝ :=
  fun i => 1 / (1 + Real.exp (x i))

/-- The logistic sigmoid named by the specification, 1 / (1 + e^(-x)),
stated for comparison with sigmoidExec. -/
noncomputable def logistic (x : ℝ) : ℝ := 1 / (1 + Real.exp (-x))

/-- Sigmoid backward pass from src/activation/sigmoid.rs: with the cached
forward output y, the input gradient is d_output * y * (-y + 1),
elementwise, before delegating further back. -/
noncomputable def sigmoidBack {ι : Type} (output dOut : ι → ℝ) : ι → ℝ :=
  fun i => dOut i * output i * (-output i + 1)

/-- Softmax forward pass from src/activation/softmax.rs: exponentiate every
entry, then divide the whole array by the scalar sum over all of its
entries (y / y.sum()), whatever the rank of the array. -/
noncomputable def softmaxExec {ι : Type} [Fintype ι] (x : ι → ℝ) : ι → ℝ :=
  fun i => Real.exp (x i) / ∑ j, Real.exp (x j)

/-- The persistent state of the Adam optimiser from src/optimise/adam.rs:
hyperparameters, first and second raw-moment estimates shaped like the
parameter container, and the integer step counter. -/
structure AdamState (ι : Type) where
  alpha : ℝ
  beta1 : ℝ
  beta2 : ℝ
  epsilon : ℝ
  m : ι → ℝ
  v : ι → ℝ
  t : ℤ

/-- Adam::optimise from src/optimise/adam.rs lines 43-81, performed
elementwise through the Mappable protocol on a parameter container
modelled as ι → ℝ, in the source's order: increment t, update m and v,
bias-correct both, fold the step size and epsilon into the corrected first
moment, and subtract the result from every parameter. -/
noncomputable def adamOptimise {ι : Type} (s : AdamState ι) (graph grads : ι → ℝ) :
    AdamState ι × (ι → ℝ) :=
  let t := s.t + 1
  let m := fun i => s.m i * s.beta1 + grads i * (1 - s.beta1)
  let v := fun i => s.v i * s.beta2 + grads i * grads i * (1 - s.beta2)
  let mb := fun i => m i / (1 - s.beta1 ^ t)
  let vb := fun i => v i / (1 - s.beta2 ^ t)
  let mb2 := fun i => mb i * s.alpha / (Real.sqrt (vb i) + s.epsilon)
  ({ s with m := m, v := v, t := t }, fun i => graph i - mb2 i)

/-- A graph stage in training form: the three operations of the
GraphExec/GraphExecTrain protocol, with the stage's parameters baked in.
Input and Output are the tensor types, State the forward cache and Grad
the parameter-gradient type. -/
structure Stage (Input Output State Grad : Type) where
  exec : Input → Output
  forward : Input → State × Output
  back : State → Output → Input × Grad

/-- The pairwise composition combinator from src/network.rs, the
GraphExec/GraphExecTrain impls for (G0, G1): exec threads the tensor
through the first stage then the second; forward does the same while
pairing the caches; back consumes the upstream gradient through the second
stage first and feeds the intermediate gradient into the first stage's
back, pairing the parameter gradients. -/
def Stage.pair {I M O S0 S1 D0 D1 : Type} (g0 : Stage I M S0 D0)
    (g1 : Stage M O S1 D1) : Stage I O (S0 × S1) (D0 × D1) where
  exec input := g1.exec (g0.exec input)
  forward input :=
    let r0 := g0.forward input
    let r1 := g1.forward r0.2
    ((r0.1, r1.1), r1.2)
  back state dOut :=
    let r1 := g1.back state.2 dOut
    let r0 := g0.back state.1 r1.1
    (r0.1, (r0.2, r1.2))

/-- Claim C8: for every input tensor x and upstream gradient dy, the
rectified-linear stage's exec returns max(0, x) elementwise and its back
returns dy * (y/x) with y the cached forward output, which equals dy at
positions where x > 0 and 0 at every other position. -/
theorem relu_exec_back_correct {ι : Type} (x dOut : ι → ℚ) (i : ι) :
    reluExec x i = max 0 (x i) ∧
    reluBack x (reluExec x) dOut i = dOut i * (reluExec x i / x i) ∧
    reluBack x (reluExec x) dOut i = if 0 < x i then dOut i else 0 := by
  refine ⟨max_comm (x i) 0, mul_comm _ _, ?_⟩
  by_cases h : 0 < x i
  · simp [reluBack, reluExec, h, max_eq_left h.le, div_self (ne_of_gt h)]
  · simp [reluBack, reluExec, h, max_eq_right (le_of_not_lt h)]

/-- Claim C5: for the affine leaf, the batched backward pass returns
dX = Wᵀ·dY, dW = (dY·Xᵀ)/n (the batch mean of the outer products, not the
sum) and db = the batch mean of dY; the unbatched backward pass returns
db = dY directly and dW as the raw outer product with no division.  The
final conjuncts exhibit a batch of size 2 on which dW is 1, the mean,
while the summed outer product would be 2. -/
theorem dense_back_correct {o i n : ℕ} (s : DenseState o i)
    (x2 : Matrix (Fin i) (Fin n) ℚ) (dY2 : Matrix (Fin o) (Fin n) ℚ)
    (x1 : Fin i → ℚ) (dY1 : Fin o → ℚ) :
    ((denseBack2 s x2 dY2).1 = fun l k => ∑ j, s.w j l * dY2 j k) ∧
    ((denseBack2 s x2 dY2).2.w = fun j l => (∑ k, dY2 j k * x2 l k) / n) ∧
    ((denseBack2 s x2 dY2).2.b = fun j => (∑ k, dY2 j k) / n) ∧
    ((denseBack1 s x1 dY1).1 = fun l => ∑ j, s.w j l * dY1 j) ∧
    ((denseBack1 s x1 dY1).2.w = fun j l => dY1 j * x1 l) ∧
    ((denseBack1 s x1 dY1).2.b = dY1) ∧
    (denseBack2 (⟨1, fun _ => 0⟩ : DenseState 1 1) (Matrix.of ![![1, 1]])
        (Matrix.of ![![1, 1]])).2.w 0 0 = 1 ∧
    ((1 : ℚ) ≠ ∑ k : Fin 2,
        (Matrix.of ![![(1 : ℚ), 1]]) 0 k * (Matrix.of ![![(1 : ℚ), 1]]) 0 k) := by
  refine ⟨?_, ?_, rfl, ?_, rfl, rfl,
    by norm_num [denseBack2, Matrix.mul_apply, Matrix.transpose_apply, Fin.sum_univ_two],
    by norm_num [Fin.sum_univ_two]⟩
  · funext l k
    simp [denseBack2, Matrix.mul_apply, Matrix.transpose_apply]
  · funext j l
    simp [denseBack2, Matrix.mul_apply, Matrix.transpose_apply]
  · funext l
    simp [denseBack1, Matrix.mulVec, Matrix.dotProduct, Matrix.transpose_apply]

/-- Claim C10: for a batched (out × n) output, MSE cost is the mean of all
n² entries of Dᵀ·D with D = output − expected, i.e. (1/n²) times the sum
over column pairs of the cross products — not the per-example mean of
squared errors, as the concrete batch ![![1, -1]] against 0 shows (cost 0
versus per-example mean 1); for a one-dimensional output the cost is the
plain sum of squares; diff is 2·(output − expected) in both cases. -/
theorem mse_cost_diff_correct {m n : ℕ} (input expected : Matrix (Fin m) (Fin n) ℚ)
    (input1 expected1 : Fin m → ℚ) :
    (mseCost2 input expected = (1 / (n : ℚ) ^ 2) *
      ∑ i, ∑ j, ∑ k, (input k i - expected k i) * (input k j - expected k j)) ∧
    mseCost1 input1 expected1 = ∑ k, (input1 k - expected1 k) * (input1 k - expected1 k) ∧
    (mseDiff2 input expected = fun i j => 2 * (input i j - expected i j)) ∧
    (mseDiff1 input1 expected1 = fun k => 2 * (input1 k - expected1 k)) ∧
    mseCost2 (Matrix.of ![![(1 : ℚ), -1]]) 0 = 0 ∧
    (1 / (2 : ℚ)) * (∑ i : Fin 2, ∑ k : Fin 1,
        ((Matrix.of ![![(1 : ℚ), -1]]) k i - 0) ^ 2) = 1 ∧
    (0 : ℚ) ≠ 1 := by
  refine ⟨?_, rfl, ?_, ?_,
    by norm_num [mseCost2, Matrix.mul_apply, Matrix.transpose_apply, Matrix.sub_apply,
      Fin.sum_univ_two, Fin.sum_univ_one],
    by norm_num [Fin.sum_univ_two, Fin.sum_univ_one], by norm_num⟩
  · simp only [mseCost2, Matrix.mul_apply, Matrix.transpose_apply, Matrix.sub_apply]
    rw [sq, one_div, div_eq_mul_inv]
    exact mul_comm _ _
  · funext i j
    simp only [mseDiff2, Matrix.of_apply]
    ring
  · funext k
    simp only [mseDiff1]
    ring

/-- Claim C6: one Adam optimise call increments t, updates the moments to
m = β₁·m + (1−β₁)·g and v = β₂·v + (1−β₂)·g² elementwise, and moves every
parameter by param − α·m̂/(√v̂ + ε) with the bias-corrected
m̂ = m/(1−β₁^t) and v̂ = v/(1−β₂^t) at the incremented t, i.e. against the
cost gradient direction. -/
theorem adam_optimise_correct {ι : Type} (s : AdamState ι) (graph grads : ι → ℝ) :
    (adamOptimise s graph grads).1.t = s.t + 1 ∧
    ((adamOptimise s graph grads).1.m =
      fun i => s.beta1 * s.m i + (1 - s.beta1) * grads i) ∧
    ((adamOptimise s graph grads).1.v =
      fun i => s.beta2 * s.v i + (1 - s.beta2) * grads i ^ 2) ∧
    ((adamOptimise s graph grads).2 = fun i =>
      graph i -
        s.alpha * ((s.beta1 * s.m i + (1 - s.beta1) * grads i) / (1 - s.beta1 ^ (s.t + 1))) /
          (Real.sqrt ((s.beta2 * s.v i + (1 - s.beta2) * grads i ^ 2) /
            (1 - s.beta2 ^ (s.t + 1))) + s.epsilon)) := by
  refine ⟨rfl, ?_, ?_, ?_⟩
  · funext j
    simp only [adamOptimise]
    ring
  · funext j
    simp only [adamOptimise]
    ring
  · funext j
    have hv : s.v j * s.beta2 + grads j * grads j * (1 - s.beta2) =
        s.beta2 * s.v j + (1 - s.beta2) * grads j ^ 2 := by ring
    simp only [adamOptimise]
    rw [hv]
    ring

/-- Claim C4, evaluated at the failing input x = 1: the sigmoid stage's
exec computes 1/(1+e^x) elementwise — the source omits the negation of x —
which differs from the logistic sigmoid 1/(1+e^(-x)) the specification
states; the backward half of the claim does hold: back returns
dy·y·(1−y) with y the cached forward output. -/
theorem sigmoid_exec_missing_negation :
    sigmoidExec (fun _ : Fin 1 => (1 : ℝ)) 0 = 1 / (1 + Real.exp 1) ∧
    sigmoidExec (fun _ : Fin 1 => (1 : ℝ)) 0 ≠ logistic 1 ∧
    ∀ (output dOut : Fin 1 → ℝ) (i : Fin 1),
      sigmoidBack output dOut i = dOut i * output i * (1 - output i) := by
  refine ⟨rfl, ?_, ?_⟩
  · have hlt : (1 : ℝ) / (1 + Real.exp 1) < 1 / (1 + Real.exp (-1)) := by
      apply one_div_lt_one_div_of_lt
      · positivity
      · have : Real.exp (-1) < Real.exp 1 := Real.exp_lt_exp.mpr (by norm_num)
        linarith
    simpa [sigmoidExec, logistic] using ne_of_lt hlt
  · intro output dOut i
    simp only [sigmoidBack]
    ring

/-- Claim C9, counterexample: on the batched all-zero 2×2 input (two
examples in the columns), the softmax output of each example's column sums
to 1/2, not 1, because exec normalises by the sum over the whole array. -/
theorem softmax_batched_column_sum_not_one :
    ∑ i : Fin 2, softmaxExec (fun _ : Fin 2 × Fin 2 => (0 : ℝ)) (i, 0) = 1 / 2 ∧
    (1 / 2 : ℝ) ≠ 1 := by
  constructor
  · have h : ∀ p : Fin 2 × Fin 2, softmaxExec (fun _ : Fin 2 × Fin 2 => (0 : ℝ)) p
        = 1 / 4 := by
      intro p
      simp [softmaxExec, Real.exp_zero, Finset.sum_const, Finset.card_univ]
    rw [Finset.sum_congr rfl fun i _ => h (i, 0)]
    simp [Finset.sum_const, Finset.card_univ]
    norm_num
  · norm_num

/-- Claim C9, amended: the softmax stage normalises by the scalar sum over
the entire array, so over any inhabited index domain — in particular a
one-dimensional single example, where the whole domain is the activation
axis — the output entries sum to 1; for a batched input it is the total
over all entries, not each example's column, that sums to 1. -/
theorem softmax_total_sum_one {ι : Type} [Fintype ι] (i0 : ι) (x : ι → ℝ) :
    ∑ i, softmaxExec x i = 1 := by
  have hpos : 0 < ∑ j, Real.exp (x j) :=
    Finset.sum_pos (fun j _ => Real.exp_pos _) ⟨i0, Finset.mem_univ i0⟩
  simp only [softmaxExec]
  rw [← Finset.sum_div, div_self (ne_of_gt hpos)]

/-- Claim C7: for any three composable stages A, B, C (the same parameter
values appearing in both regroupings), the nestings (A,B),C and A,(B,C) of
the pairwise composition combinator produce the same exec output on every
input, and a forward pass followed by a backward pass produces the same
forward output, the same input gradient, and — after flattening the
regrouping — identical parameter gradients componentwise. -/
theorem pair_assoc_correct {I M N O SA SB SC DA DB DC : Type}
    (A : Stage I M SA DA) (B : Stage M N SB DB) (C : Stage N O SC DC)
    (x : I) (dOut : O) :
    ((A.pair B).pair C).exec x = (A.pair (B.pair C)).exec x ∧
    (((A.pair B).pair C).forward x).2 = ((A.pair (B.pair C)).forward x).2 ∧
    (((A.pair B).pair C).back (((A.pair B).pair C).forward x).1 dOut).1
      = ((A.pair (B.pair C)).back ((A.pair (B.pair C)).forward x).1 dOut).1 ∧
    (((A.pair B).pair C).back (((A.pair B).pair C).forward x).1 dOut).2.1.1
      = ((A.pair (B.pair C)).back ((A.pair (B.pair C)).forward x).1 dOut).2.1 ∧
    (((A.pair B).pair C).back (((A.pair B).pair C).forward x).1 dOut).2.1.2
      = ((A.pair (B.pair C)).back ((A.pair (B.pair C)).forward x).1 dOut).2.2.1 ∧
    (((A.pair B).pair C).back (((A.pair B).pair C).forward x).1 dOut).2.2
      = ((A.pair (B.pair C)).back ((A.pair (B.pair C)).forward x).1 dOut).2.2.2 :=
  ⟨rfl, rfl, rfl, rfl, rfl, rfl⟩

/-- Claim C1, evaluated at a failing input: a single-parameter graph with
value 1, dropout rate 1/2, a uniform draw of 0 (below the rate, so the
parameter must be zeroed), and a forward/backward probe whose batch cost
reports the parameter value seen by the forward pass.  The source masks a
clone of the graph but runs get_grads on the unmasked self.graph, so the
reported cost is 1; under the claimed behaviour (trainStepSpec) the forward
pass sees the masked parameter and the cost is 0.  The last two conjuncts
confirm the half of the claim that does hold: the zero/scale pattern is
applied to the gradient (a gradient of 3 is zeroed under a draw of 0 and
scaled to 3·(1/(1−1/2)) = 6 under a draw of 9/10). -/
theorem train_dropout_mask_unused :
    (trainStep (fun g => (fun _ => 0, g ())) (fun g _ => g) none (1 / 2)
        (fun _ => 1) (fun _ => (0 : ℚ))).2 = 1 ∧
    (trainStepSpec (fun g => (fun _ => 0, g ())) (fun g _ => g) none (1 / 2)
        (fun _ => 1) (fun _ => (0 : ℚ))).2 = 0 ∧
    (trainStep (fun g => (fun _ => 3, g ())) (fun _ dg => dg) none (1 / 2)
        (fun _ => 1) (fun _ => (0 : ℚ))).1 () = 0 ∧
    (trainStep (fun g => (fun _ => 3, g ())) (fun _ dg => dg) none (1 / 2)
        (fun _ => 1) (fun _ => (9 / 10 : ℚ))).1 () = 6 ∧
    (1 : ℚ) ≠ 0 := by
  refine ⟨?_, ?_, ?_, ?_, by norm_num⟩ <;>
    norm_num [trainStep, trainStepSpec]

/-- Claim C2: Regularisation::apply does add the elementwise penalty
gradient into the parameter gradient (L1: signum(param)·a; L2: 2·param·a;
combined: both), but the scalar penalty it returns is zero for every
variant, because the move closure accumulates into its own copy of the
cost variable; so Train::train does not increase the batch cost by the
penalty.  Concretely, with one parameter of value 1, L2 coefficient 1 and
a base batch cost of 5, train reports 5 while the claim requires
5 + penalty = 6. -/
theorem regularisation_gradient_applied_cost_dropped {ι : Type}
    (grads graph : ι → ℚ) (a b : ℚ) :
    ((regApply (Regularisation.L1 a) grads graph).1 =
      fun i => grads i + rustSignum (graph i) * a) ∧
    ((regApply (Regularisation.L2 a) grads graph).1 =
      fun i => grads i + a * (2 * graph i)) ∧
    ((regApply (Regularisation.L1_2 a b) grads graph).1 =
      fun i => grads i + rustSignum (graph i) * a + b * (2 * graph i)) ∧
    (∀ r : Regularisation, (regApply r grads graph).2 = 0) ∧
    (trainStep (fun _ => (fun _ => 0, 5)) (fun g _ => g) (some (Regularisation.L2 1)) 1
        (fun _ : Unit => 1) (fun _ => 0)).2 = 5 ∧
    (5 : ℚ) + regPenalty (Regularisation.L2 1) (fun _ : Unit => (1 : ℚ)) = 6 ∧
    (5 : ℚ) ≠ 6 := by
  refine ⟨rfl, ?_, ?_, ?_, ?_, ?_, by norm_num⟩
  · funext i
    simp only [regApply]
    ring
  · funext i
    simp only [regApply]
    ring
  · intro r
    cases r <;> rfl
  · norm_num [trainStep, regApply]
  · norm_num [regPenalty]

/-- Claim C3, evaluated at a failing input: three examples, batch size 2,
per-batch cost 1.  The loop of perform_epoch steps i over 0, 2 and slices
indicies[i..i+2]; at i = 2 the slice [2..4] overruns the length-3 index
vector and the program panics, so the remainder block after the loop is
never reached.  Under the claimed behaviour (performEpochSpec) the one
full batch and the undersized remainder are both trained and the epoch
reports 2/⌈3/2⌉ = 1. -/
theorem perform_epoch_remainder_panics :
    performEpoch (fun s _ => (s, (1 : ℚ))) () [0, 1, 2] 2 = none ∧
    performEpochSpec (fun s _ => (s, (1 : ℚ))) () [0, 1, 2] 2 = some ((), 1) := by
  constructor
  · rfl
  · norm_num [performEpochSpec, List.range_succ]
